import Mathlib

/-!
# Verification development for the FPL mini-league leaderboard pipeline

Shallow embedding of the repository's `src/app.py` (a Flask app that fetches a
classic-league standings listing page by page, fans out one history fetch per
team, derives a per-gameweek leaderboard entry for each covered team, ranks the
entries by raw gameweek points, and serves a polled progress endpoint).

Modelling conventions:
* JSON dictionaries become structures; a key that may be absent in the payload
  becomes an `Option` field, and the raising subscript access `d[k]` becomes a
  lookup in the `Except` monad (`KeyError` on a missing key).
* `fetch_data` (an HTTP GET returning `None` on any failure) becomes a function
  parameter mapping the request key to a response datatype; `None`-or-falsy
  responses are one constructor.
* Python `int` is `Int` (exact, unbounded); list subscripts use Python
  semantics (negative indices count from the end, out of range raises).
* The only float computation in the program (`int((processed/total)*100)`) is
  modelled exactly over `Nat` as two correctly-rounded (round to nearest, ties
  to even) 53-bit operations followed by truncation, mirroring IEEE-754
  binary64 in the value range the program uses.
* The thread pool's completion order (`as_completed`) is abstracted as
  submission order for result collection; the unsynchronized
  `processed_count += 1` is additionally given a small interleaving semantics
  (`cstep`/`crun`) in which the read and the write of the counter are separate
  atomic actions, matching the CPython bytecode level at which the increment
  can be preempted.
-/

/-- One element of `history['current']`: the per-gameweek record of a team.
The two keys the program reads are `Option`s so that a successfully fetched
but malformed payload (missing key → `KeyError`) is representable. -/
structure PeriodEntry where
  points : Option Int
  event_transfers_cost : Option Int
  deriving Repr, DecidableEq

/-- Result of `fetch_manager_history(team_id)` as used by the program:
`fail` is a falsy result (`fetch_data` returned `None`, or an empty dict);
`payload cur` is a truthy dict, whose `current` key may be absent. -/
inductive HistResp where
  | fail
  | payload (current : Option (List PeriodEntry))
  deriving Repr, DecidableEq

/-- One row of `data['standings']['results']`. Every key the program reads is
an `Option` field so that a listing row with a missing key is representable. -/
structure Manager where
  entry : Option Int
  entry_name : Option String
  player_name : Option String
  total : Option Int
  rank : Option Int
  deriving Repr, DecidableEq

/-- The dict built for one covered team (serialization fields of the
leaderboard). -/
structure LBEntry where
  manager_name : String
  player_name : String
  team_id : Int
  gw_points : Int
  transfer_cost : Int
  net_points : Int
  total_points : Int
  overall_rank : Int
  deriving Repr, DecidableEq

/-- Raising dictionary access `d[k]`: `KeyError` when the key is absent. -/
def getKey (o : Option α) : Except String α :=
  match o with
  | some v => Except.ok v
  | none => Except.error "KeyError"

/-- Python list subscript `l[i]`: negative indices count from the end;
an index out of range raises `IndexError`. -/
def pyIndex (l : List α) (i : Int) : Except String α :=
  let j : Int := if i < 0 then (l.length : Int) + i else i
  if 0 ≤ j then
    match l.get? j.toNat with
    | some a => Except.ok a
    | none => Except.error "IndexError"
  else
    Except.error "IndexError"

/-- The body of the `try:` block of `fetch_manager_gw_data` (src/app.py lines
84–102), in source order.  `Except.error` is a raised exception,
`Except.ok none` is the fall-through `return None` (history falsy, or history
shorter than the requested gameweek), `Except.ok (some e)` is the returned
entry dict.  `histOf` models `fetch_manager_history`. -/
def deriveEntry (gameweek : Int) (histOf : Int → HistResp) (manager : Manager) :
    Except String (Option LBEntry) := do
  let team_id ← getKey manager.entry
  match histOf team_id with
  | HistResp.fail => return none
  | HistResp.payload cur? =>
    let cur ← getKey cur?
    if (cur.length : Int) ≥ gameweek then
      let pe ← pyIndex cur (gameweek - 1)
      let gw_points ← getKey pe.points
      let transfer_cost ← getKey pe.event_transfers_cost
      let net_points := gw_points - transfer_cost
      let manager_name ← getKey manager.entry_name
      let player_name ← getKey manager.player_name
      let team_id2 ← getKey manager.entry
      let total_points ← getKey manager.total
      let overall_rank ← getKey manager.rank
      return some
        { manager_name := manager_name
          player_name := player_name
          team_id := team_id2
          gw_points := gw_points
          transfer_cost := transfer_cost
          net_points := net_points
          total_points := total_points
          overall_rank := overall_rank }
    else
      return none

/-- Observable outcome of one unit of work (one call of
`fetch_manager_gw_data`): it returned an entry dict, returned `None` without
raising, or raised an exception that the unit's `except Exception` caught
(also returning `None`). -/
inductive UnitOutcome where
  | entry (e : LBEntry)
  | noEntry
  | caught
  deriving Repr, DecidableEq

/-- `fetch_manager_gw_data` (src/app.py lines 82–108): the `try` body with
every exception caught by the `except Exception` handler. -/
def fetch_manager_gw_data (gameweek : Int) (histOf : Int → HistResp)
    (manager : Manager) : UnitOutcome :=
  match deriveEntry gameweek histOf manager with
  | Except.ok (some e) => UnitOutcome.entry e
  | Except.ok none => UnitOutcome.noEntry
  | Except.error _ => UnitOutcome.caught

/-- The value the future delivers to the collection loop (`None` is dropped by
the `if result:` check; an entry dict, being a non-empty dict, is truthy). -/
def unitResult (gameweek : Int) (histOf : Int → HistResp) (manager : Manager) :
    Option LBEntry :=
  match fetch_manager_gw_data gameweek histOf manager with
  | UnitOutcome.entry e => some e
  | UnitOutcome.noEntry => none
  | UnitOutcome.caught => none

/-- Entries collected from a list of managers, in submission order (the
nondeterministic `as_completed` delivery order is abstracted as submission
order; the collected multiset does not depend on that order). -/
def collectEntries (gameweek : Int) (histOf : Int → HistResp)
    (managers : List Manager) : List LBEntry :=
  managers.filterMap (unitResult gameweek histOf)

/-- Batch slicing `managers[i:i+batch_size]` of the submission loop
(src/app.py lines 110–113), driven by a fuel that starts at the list length. -/
def toBatchesAux (bs : Nat) : Nat → List α → List (List α)
  | 0, _ => []
  | _, [] => []
  | fuel + 1, l => l.take bs :: toBatchesAux bs fuel (l.drop bs)

/-- The fixed-size submission batches of the program (`batch_size = 50`). -/
def toBatches (bs : Nat) (l : List α) : List (List α) :=
  toBatchesAux bs l.length l

/-- Entries collected by the batched submission loop of `get_gw_leaderboard`
(src/app.py lines 110–121): each batch is submitted to the pool and its
results appended before the next batch starts. -/
def collectBatched (gameweek : Int) (histOf : Int → HistResp)
    (managers : List Manager) : List LBEntry :=
  (toBatches 50 managers).map (collectEntries gameweek histOf) |>.flatten

/-- One step of the stable insertion modelling
`leaderboard.sort(key=lambda x: x['gw_points'], reverse=True)`: descending by
`gw_points`, an element is placed before the first element whose key is not
strictly greater, so equal keys keep their original relative order. -/
def insertEntry (x : LBEntry) : List LBEntry → List LBEntry
  | [] => [x]
  | y :: ys => if y.gw_points ≤ x.gw_points then x :: y :: ys else y :: insertEntry x ys

/-- The ranking of src/app.py line 123: Python's `list.sort` is a stable sort,
and with `reverse=True` it delivers keys in non-increasing order while still
preserving the input order of equal keys.  The unique list with those two
properties is computed here by stable insertion. -/
def rankEntries : List LBEntry → List LBEntry
  | [] => []
  | x :: xs => insertEntry x (rankEntries xs)

/-- Response of one standings page request (`fetch_data` on
`leagues-classic/{league_id}/standings/?page_standings={page}`):
`fail` is a falsy result (`None` or an empty dict), `noStandings` a truthy
dict with no `standings` key, `page results has_next` a well-formed page
(`has_next` absent is modelled as `false`, matching `.get('has_next', False)`). -/
inductive PageResp where
  | fail
  | noStandings
  | page (results : List Manager) (has_next : Bool)
  deriving Repr, DecidableEq

/-- What `fetch_league_data` does on termination of its `while True` loop:
`retNone` — returned the falsy last response unchanged (first page failed);
`retNoStandings` — returned a truthy dict with no `standings` key (first page
was such a dict);
`retData rs` — returned the last page's dict with its `results` replaced by
the accumulated `rs` (or, when nothing was accumulated, the dict of an empty
first page, whose `results` list is equally `rs = []`);
`exn` — the write `data['standings']['results'] = all_results` on line 52
raised (`TypeError` on `None`, `KeyError` on a dict without `standings`),
because a page after the first failed while entries were already accumulated. -/
inductive ListingOutcome where
  | exn
  | retNone
  | retNoStandings
  | retData (results : List Manager)
  deriving Repr, DecidableEq

/-- The pagination loop of `fetch_league_data` (src/app.py lines 28–54).
`net` maps a page number to its response; `pg` is the next page to request,
`acc` is `all_results`.  Returns the outcome together with the number of the
last page requested; `none` when the fuel is exhausted (the real loop would
still be running). -/
def fetchLoop (net : Nat → PageResp) : Nat → Nat → List Manager →
    Option (ListingOutcome × Nat)
  | 0, _, _ => none
  | fuel + 1, pg, acc =>
    match net pg with
    | PageResp.fail =>
      some (if acc = [] then (ListingOutcome.retNone, pg) else (ListingOutcome.exn, pg))
    | PageResp.noStandings =>
      some (if acc = [] then (ListingOutcome.retNoStandings, pg) else (ListingOutcome.exn, pg))
    | PageResp.page results has_next =>
      if results = [] then some (ListingOutcome.retData acc, pg)
      else if has_next then fetchLoop net fuel (pg + 1) (acc ++ results)
      else some (ListingOutcome.retData (acc ++ results), pg)

/-- `fetch_league_data(league_id)` (src/app.py lines 28–54): start at page 1
with an empty accumulator. -/
def fetch_league_data (net : Nat → PageResp) (fuel : Nat) :
    Option (ListingOutcome × Nat) :=
  fetchLoop net fuel 1 []

/-- The status tag space of the spec's progress state machine.  The program
itself only ever stores the strings 'processing' and 'completed'
(src/app.py lines 75 and 124); `notStarted` and `failed` are the spec's
remaining tags, never written by the code. -/
inductive Status where
  | notStarted
  | processing
  | completed
  | failed
  deriving Repr, DecidableEq

/-- Position of a tag along the spec's chain
not-started → in-progress → {completed | failed}. -/
def statusRank : Status → Nat
  | Status.notStarted => 0
  | Status.processing => 1
  | Status.completed => 2
  | Status.failed => 2

/-- How one background job run ends: `crash` — an uncaught exception killed
the thread (no return value, no further writes); `err` — the function
returned `(None, message)`; `ok` — it returned `(leaderboard, None)`. -/
inductive JobResult where
  | crash
  | err (msg : String)
  | ok (leaderboard : List LBEntry)
  deriving Repr, DecidableEq

/-- `get_gw_leaderboard` (src/app.py lines 62–126), instrumented with the
ordered list of writes the run makes to the job's `status` field.  On a falsy
listing result it returns the error tuple having written no status; on a
truthy dict without `standings`, line 69 raises `KeyError` (crash); if
`fetch_league_data` itself raised, the exception propagates (crash).
Otherwise the job writes 'processing', processes every batch (each unit's
exceptions are caught inside the unit), ranks, writes 'completed' and
returns the leaderboard. -/
def get_gw_leaderboard (net : Nat → PageResp) (histOf : Int → HistResp)
    (gameweek : Int) (fuel : Nat) : Option (JobResult × List Status) :=
  match fetch_league_data net fuel with
  | none => none
  | some (ListingOutcome.retNone, _) =>
    some (JobResult.err "Failed to fetch league data", [])
  | some (ListingOutcome.retNoStandings, _) => some (JobResult.crash, [])
  | some (ListingOutcome.exn, _) => some (JobResult.crash, [])
  | some (ListingOutcome.retData managers, _) =>
    some (JobResult.ok (rankEntries (collectBatched gameweek histOf managers)),
      [Status.processing, Status.completed])

/-- The status writes a job run performs (empty when the run never reached
line 72, or when the fuel ran out). -/
def jobTrace (net : Nat → PageResp) (histOf : Int → HistResp)
    (gameweek : Int) (fuel : Nat) : List Status :=
  match get_gw_leaderboard net histOf gameweek fuel with
  | none => []
  | some (_, tr) => tr

/-- The in-memory `progress_data[request_id]` record: counters, status tag and
the final leaderboard once line 148 stored it under the `data` key. -/
structure ProgressEntry where
  total : Nat
  processed : Nat
  status : Status
  data : Option (List LBEntry)
  deriving Repr, DecidableEq

/-- The JSON body `get_progress` answers with (src/app.py lines 160–188):
`notFound` is the 404 for an unknown request id; `completedResp` the final
payload (leaderboard plus `total_managers = len(leaderboard)`); otherwise the
progress payload carrying the percentage. -/
inductive ProgressResponse where
  | notFound
  | completedResp (leaderboard : List LBEntry) (total_managers : Nat)
  | processingResp (total processed pct : Nat)
  deriving Repr, DecidableEq

/-- Floor of log₂ with explicit fuel (exact for `0 < n < 2 ^ fuel`). -/
def log2f : Nat → Nat → Nat
  | 0, _ => 0
  | fuel + 1, n => if n ≤ 1 then 0 else log2f fuel (n / 2) + 1

/-- Round the rational `a / b` to the nearest integer, ties to even
(the IEEE-754 default rounding applied to a scaled significand). -/
def rhe (a b : Nat) : Nat :=
  let q := a / b
  let r := a % b
  if 2 * r < b then q
  else if b < 2 * r then q + 1
  else if q % 2 = 0 then q else q + 1

/-- Correctly rounded binary64 quotient `p / t` for `p, t ≥ 1`, as a pair
(significand `m`, exponent `e`) denoting `m * 2 ^ (e - 52)` with
`2 ^ 52 ≤ m ≤ 2 ^ 53`.  The binade is located by shifting the quotient up by
`2 ^ 200` (exact for the program's range `2 ^ (-200) ≤ p / t < 2 ^ 200`). -/
def fdiv53 (p t : Nat) : Nat × Int :=
  let E := log2f 400 (p * 2 ^ 200 / t)
  (rhe (p * 2 ^ 252) (t * 2 ^ E), (E : Int) - 200)

/-- Correctly rounded binary64 product of `m1 * 2 ^ (e1 - 52)` with the exact
constant 100: the integer significand `100 * m1` is rounded back to 53 bits
(no rounding when it already fits). -/
def fmul100 (m1 : Nat) (e1 : Int) : Nat × Int :=
  let mp := 100 * m1
  let d := log2f 400 mp - 52
  (rhe mp (2 ^ d), e1 + (d : Int))

/-- `int((processed / total) * 100) if total > 0 else 0` (src/app.py line
187): two correctly rounded binary64 operations followed by `int()`
truncation (floor, as the value is non-negative).  `p = 0` divides to the
exact float `0.0`. -/
def percentage (p t : Nat) : Nat :=
  if t = 0 then 0
  else if p = 0 then 0
  else
    let md := fdiv53 p t
    let mm := fmul100 md.1 md.2
    if 52 ≤ mm.2 then mm.1 * 2 ^ (mm.2 - 52).toNat
    else mm.1 / 2 ^ (52 - mm.2).toNat

/-- `get_progress(request_id)` (src/app.py lines 160–188) on the looked-up
store entry (`none`: id not in `progress_data`).  A completed entry whose
`data` key is not yet written still answers with the progress payload. -/
def get_progress (store : Option ProgressEntry) : ProgressResponse :=
  match store with
  | none => ProgressResponse.notFound
  | some e =>
    match e.data with
    | some lb =>
      if e.status = Status.completed then ProgressResponse.completedResp lb lb.length
      else ProgressResponse.processingResp e.total e.processed (percentage e.processed e.total)
    | none => ProgressResponse.processingResp e.total e.processed (percentage e.processed e.total)

/-- Progress bookkeeping of one completed unit as seen by the job
(src/app.py lines 105–107 and 118–121): whatever the outcome, the `finally`
block increments the processed counter once; only an entry outcome appends to
the leaderboard. -/
structure UnitState where
  processed : Nat
  board : List LBEntry
  deriving Repr, DecidableEq

/-- Effect of one finished unit of work on the job's progress state. -/
def runUnit (gameweek : Int) (histOf : Int → HistResp) (manager : Manager)
    (s : UnitState) : UnitState :=
  match fetch_manager_gw_data gameweek histOf manager with
  | UnitOutcome.entry e => { processed := s.processed + 1, board := s.board ++ [e] }
  | UnitOutcome.noEntry => { processed := s.processed + 1, board := s.board }
  | UnitOutcome.caught => { processed := s.processed + 1, board := s.board }

/-- The two bytecode-level atomic actions of the unsynchronized
`processed_count += 1` executed by worker `u`: load the shared counter into
the unit's local register, then store back the loaded value plus one. -/
inductive Ev where
  | rd (u : Nat)
  | wr (u : Nat)
  deriving Repr, DecidableEq

/-- Shared counter plus each unit's local register. -/
structure ConcState where
  counter : Nat
  reg : Nat → Option Nat

/-- Interleaving semantics of the increments: a read snapshots the counter,
a write stores the snapshot plus one (a write without a preceding read — which
program order excludes — leaves the state unchanged). -/
def cstep (s : ConcState) : Ev → ConcState
  | Ev.rd u =>
    { counter := s.counter, reg := fun v => if v = u then some s.counter else s.reg v }
  | Ev.wr u =>
    match s.reg u with
    | some r => { counter := r + 1, reg := s.reg }
    | none => s

/-- Run a schedule of atomic actions. -/
def crun (s : ConcState) (evs : List Ev) : ConcState :=
  evs.foldl cstep s

/-- Counter state at job start. -/
def cinit : ConcState :=
  { counter := 0, reg := fun _ => none }

/-- Whether an action is a counter load. -/
def isRead : Ev → Bool
  | Ev.rd _ => true
  | Ev.wr _ => false

/-- A schedule in which each of the `n` units completed: it consists of
exactly one load and one store per unit (in any interleaving). -/
def completesAll (n : Nat) (sched : List Ev) : Prop :=
  (sched.filter isRead).Perm ((List.range n).map Ev.rd) ∧
  (sched.filter (fun e => !isRead e)).Perm ((List.range n).map Ev.wr)

/-- The schedule in which no two increments interleave: each unit's store
immediately follows its load. -/
def seqSched (n : Nat) : List Ev :=
  (List.range n).flatMap (fun u => [Ev.rd u, Ev.wr u])

/-! ## Concrete fixtures

Small concrete inputs used to evaluate the embedding (listing rows, history
payloads and page functions mirroring the spec's worked scenario: team 1 is
covered by gameweek 2, team 2's history is too short, team 3's history fetch
fails). -/

/-- A well-formed listing row for team 1. -/
def mgrA : Manager :=
  { entry := some 1, entry_name := some "Alpha FC", player_name := some "Ann",
    total := some 120, rank := some 3 }

/-- A well-formed listing row for team 2. -/
def mgrB : Manager :=
  { entry := some 2, entry_name := some "Beta FC", player_name := some "Ben",
    total := some 110, rank := some 7 }

/-- A well-formed listing row for team 3. -/
def mgrC : Manager :=
  { entry := some 3, entry_name := some "Gamma FC", player_name := some "Cam",
    total := some 90, rank := some 11 }

/-- Gameweek 1 record of team 1: 10 points, no penalty. -/
def peA1 : PeriodEntry := { points := some 10, event_transfers_cost := some 0 }

/-- Gameweek 2 record of team 1: 20 points, 2 penalty. -/
def peA2 : PeriodEntry := { points := some 20, event_transfers_cost := some 2 }

/-- Gameweek 1 record of team 2 (its only one). -/
def peB1 : PeriodEntry := { points := some 5, event_transfers_cost := some 0 }

/-- A malformed period record: the `points` key is missing. -/
def peBad : PeriodEntry := { points := none, event_transfers_cost := some 0 }

/-- History service of the worked scenario: team 1 has two gameweeks, team 2
has one, every other history fetch fails. -/
def histC3 : Int → HistResp := fun tid =>
  if tid = 1 then HistResp.payload (some [peA1, peA2])
  else if tid = 2 then HistResp.payload (some [peB1])
  else HistResp.fail

/-- History service whose every payload is malformed (missing `points` key). -/
def histBadKey : Int → HistResp := fun _ => HistResp.payload (some [peBad])

/-- History service with a single one-gameweek history for every team. -/
def histOne : Int → HistResp := fun _ => HistResp.payload (some [peA1])

/-- History service with a single two-gameweek history for every team. -/
def histTwo : Int → HistResp := fun _ => HistResp.payload (some [peA1, peA2])

/-- Listing whose page 1 succeeds with more pages signalled and whose page 2
fetch fails. -/
def netC1 : Nat → PageResp := fun pg =>
  if pg = 1 then PageResp.page [mgrA] true else PageResp.fail

/-- Two-page listing: page 1 holds two rows and signals more, page 2 holds one
row and is last. -/
def netC6 : Nat → PageResp := fun pg =>
  if pg = 1 then PageResp.page [mgrA, mgrB] true
  else if pg = 2 then PageResp.page [mgrC] false
  else PageResp.fail

/-- Single-page listing with the three scenario rows. -/
def netC3 : Nat → PageResp := fun pg =>
  if pg = 1 then PageResp.page [mgrA, mgrB, mgrC] false else PageResp.fail

/-- Single-page listing with one row. -/
def netOne : Nat → PageResp := fun pg =>
  if pg = 1 then PageResp.page [mgrA] false else PageResp.fail

/-- Results list of a page response (empty for a failed page). -/
def pageResults : PageResp → List Manager
  | PageResp.page rs _ => rs
  | _ => []

/-- Two increments racing: both units load the counter (both read 0) before
either stores, so one increment is lost. -/
def racySched : List Ev :=
  [Ev.rd 0, Ev.rd 1, Ev.wr 0, Ev.wr 1]

/-! ## Helper lemmas: ranking -/

lemma insertEntry_perm (x : LBEntry) (l : List LBEntry) :
    (insertEntry x l).Perm (x :: l) := by
  induction l with
  | nil => exact List.Perm.refl _
  | cons y ys ih =>
    by_cases h : y.gw_points ≤ x.gw_points
    · simp [insertEntry, h]
    · simp only [insertEntry, if_neg h]
      exact (ih.cons y).trans (List.Perm.swap x y ys)

lemma rankEntries_perm (l : List LBEntry) : (rankEntries l).Perm l := by
  induction l with
  | nil => exact List.Perm.refl _
  | cons x xs ih => exact (insertEntry_perm x (rankEntries xs)).trans (ih.cons x)

lemma insertEntry_sorted (x : LBEntry) (l : List LBEntry)
    (h : l.Sorted (fun a b => b.gw_points ≤ a.gw_points)) :
    (insertEntry x l).Sorted (fun a b => b.gw_points ≤ a.gw_points) := by
  induction l with
  | nil => simp [insertEntry]
  | cons y ys ih =>
    by_cases hxy : y.gw_points ≤ x.gw_points
    · simp only [insertEntry, if_pos hxy]
      refine List.Pairwise.cons ?_ h
      intro z hz
      rcases List.mem_cons.mp hz with rfl | hz
      · exact hxy
      · exact le_trans (List.rel_of_sorted_cons h z hz) hxy
    · simp only [insertEntry, if_neg hxy]
      refine List.Pairwise.cons ?_ (ih h.of_cons)
      intro z hz
      have hz2 : z ∈ x :: ys := (insertEntry_perm x ys).mem_iff.mp hz
      rcases List.mem_cons.mp hz2 with rfl | hz3
      · exact le_of_lt (lt_of_not_le hxy)
      · exact List.rel_of_sorted_cons h z hz3

lemma rankEntries_sorted (l : List LBEntry) :
    (rankEntries l).Sorted (fun a b => b.gw_points ≤ a.gw_points) := by
  induction l with
  | nil => simp [rankEntries]
  | cons x xs ih => exact insertEntry_sorted x (rankEntries xs) ih

lemma filter_insertEntry_pos (k : Int) (x : LBEntry) (l : List LBEntry)
    (hx : x.gw_points = k) :
    (insertEntry x l).filter (fun e => e.gw_points == k) =
      x :: l.filter (fun e => e.gw_points == k) := by
  induction l with
  | nil => simp [insertEntry, hx]
  | cons y ys ih =>
    by_cases hxy : y.gw_points ≤ x.gw_points
    · simp only [insertEntry, if_pos hxy]
      simp [List.filter, hx]
    · have hyk : (y.gw_points == k) = false := by
        have : x.gw_points < y.gw_points := lt_of_not_le hxy
        simp only [beq_eq_false_iff_ne, ne_eq]
        omega
      simp only [insertEntry, if_neg hxy]
      simp only [List.filter, hyk]
      exact ih

lemma filter_insertEntry_neg (k : Int) (x : LBEntry) (l : List LBEntry)
    (hx : x.gw_points ≠ k) :
    (insertEntry x l).filter (fun e => e.gw_points == k) =
      l.filter (fun e => e.gw_points == k) := by
  have hxk : (x.gw_points == k) = false := by simpa using hx
  induction l with
  | nil => simp [insertEntry, hxk]
  | cons y ys ih =>
    by_cases hxy : y.gw_points ≤ x.gw_points
    · simp only [insertEntry, if_pos hxy]
      simp [List.filter, hxk]
    · simp only [insertEntry, if_neg hxy]
      simp only [List.filter]
      cases hyk : (y.gw_points == k) <;> simp [ih]

lemma rankEntries_filter (k : Int) (l : List LBEntry) :
    (rankEntries l).filter (fun e => e.gw_points == k) =
      l.filter (fun e => e.gw_points == k) := by
  induction l with
  | nil => rfl
  | cons x xs ih =>
    by_cases hx : x.gw_points = k
    · rw [show rankEntries (x :: xs) = insertEntry x (rankEntries xs) from rfl,
        filter_insertEntry_pos k x (rankEntries xs) hx, ih]
      simp [List.filter, hx]
    · have hxk : (x.gw_points == k) = false := by simpa using hx
      rw [show rankEntries (x :: xs) = insertEntry x (rankEntries xs) from rfl,
        filter_insertEntry_neg k x (rankEntries xs) hx, ih]
      simp [List.filter, hxk]

/-! ## Helper lemmas: batching -/

lemma flatten_toBatchesAux (bs : Nat) (hbs : 0 < bs) :
    ∀ (fuel : Nat) (l : List α), l.length ≤ fuel →
      (toBatchesAux bs fuel l).flatten = l := by
  intro fuel
  induction fuel with
  | zero =>
    intro l hl
    have : l = [] := List.eq_nil_of_length_eq_zero (Nat.le_zero.mp hl)
    simp [this, toBatchesAux]
  | succ fuel ih =>
    intro l hl
    cases l with
    | nil => simp [toBatchesAux]
    | cons x xs =>
      have hdrop : (List.drop bs (x :: xs)).length ≤ fuel := by
        simp only [List.length_cons] at hl
        simp only [List.length_drop, List.length_cons]
        omega
      simp only [toBatchesAux, List.flatten_cons, ih _ hdrop, List.take_append_drop]

lemma flatten_toBatches (bs : Nat) (hbs : 0 < bs) (l : List α) :
    (toBatches bs l).flatten = l :=
  flatten_toBatchesAux bs hbs l.length l le_rfl

lemma collectBatched_eq_collectEntries (gameweek : Int) (histOf : Int → HistResp)
    (managers : List Manager) :
    collectBatched gameweek histOf managers = collectEntries gameweek histOf managers := by
  unfold collectBatched collectEntries
  rw [show (fun l => List.filterMap (unitResult gameweek histOf) l) = collectEntries gameweek histOf from rfl]
  calc ((toBatches 50 managers).map (collectEntries gameweek histOf)).flatten
      = List.filterMap (unitResult gameweek histOf) (toBatches 50 managers).flatten := by
        rw [List.filterMap_flatten]
        rfl
    _ = List.filterMap (unitResult gameweek histOf) managers := by
        rw [flatten_toBatches 50 (by omega) managers]

/-! ## Helper lemmas: the interleaved counter -/

lemma crun_append (s : ConcState) (l1 l2 : List Ev) :
    crun s (l1 ++ l2) = crun (crun s l1) l2 :=
  List.foldl_append cstep s l1 l2

lemma crun_counter_le (evs : List Ev) :
    ∀ (s : ConcState) (R : Nat), s.counter ≤ R →
      (∀ u r, s.reg u = some r → r < R) →
      (crun s evs).counter ≤ R + evs.countP isRead := by
  induction evs with
  | nil => intro s R hc _; simpa [crun]
  | cons e evs ih =>
    intro s R hc hr
    cases e with
    | rd u =>
      have step : crun s (Ev.rd u :: evs) = crun (cstep s (Ev.rd u)) evs := rfl
      rw [step]
      have h1 : (cstep s (Ev.rd u)).counter ≤ R + 1 := by
        simp [cstep]; omega
      have h2 : ∀ v r, (cstep s (Ev.rd u)).reg v = some r → r < R + 1 := by
        intro v r hv
        simp only [cstep] at hv
        by_cases hvu : v = u
        · simp [hvu] at hv; omega
        · simp [hvu] at hv; exact Nat.lt_succ_of_lt (hr v r hv)
      have := ih (cstep s (Ev.rd u)) (R + 1) h1 h2
      have hcount : (Ev.rd u :: evs).countP isRead = evs.countP isRead + 1 :=
        List.countP_cons_of_pos isRead evs rfl
      omega
    | wr u =>
      have step : crun s (Ev.wr u :: evs) = crun (cstep s (Ev.wr u)) evs := rfl
      rw [step]
      have hcount : (Ev.wr u :: evs).countP isRead = evs.countP isRead := by
        simp [List.countP_cons, isRead]
      cases hreg : s.reg u with
      | none =>
        have hs : cstep s (Ev.wr u) = s := by simp [cstep, hreg]
        rw [hs, hcount]
        exact ih s R hc hr
      | some r =>
        have hs : cstep s (Ev.wr u) = { counter := r + 1, reg := s.reg } := by
          simp [cstep, hreg]
        rw [hs, hcount]
        exact ih _ R (hr u r hreg) hr

lemma completesAll_countP {n : Nat} {sched : List Ev} (h : completesAll n sched) :
    sched.countP isRead = n := by
  rw [List.countP_eq_length_filter, h.1.length_eq, List.length_map, List.length_range]

lemma crun_seqSched (n : Nat) : ∀ s : ConcState, (crun s (seqSched n)).counter = s.counter + n := by
  induction n with
  | zero => intro s; simp [seqSched, crun]
  | succ n ih =>
    intro s
    have hseq : seqSched (n + 1) = seqSched n ++ [Ev.rd n, Ev.wr n] := by
      unfold seqSched
      rw [List.range_succ, List.flatMap_append]
      rfl
    have hpair : ∀ s2 : ConcState, (crun s2 [Ev.rd n, Ev.wr n]).counter = s2.counter + 1 := by
      intro s2
      simp [crun, cstep]
    rw [hseq, crun_append, hpair, ih]
    omega

/-! ## Helper lemmas: pagination -/

lemma fetchLoop_run (net : Nat → PageResp) (k : Nat)
    (hstop : ∃ rs hn, net k = PageResp.page rs hn ∧ (rs = [] ∨ hn = false)) :
    ∀ (fuel pg : Nat) (acc : List Manager), 1 ≤ pg → pg ≤ k → k + 1 - pg ≤ fuel →
      (∀ i, pg ≤ i → i < k → ∃ rs, net i = PageResp.page rs true ∧ rs ≠ []) →
      fetchLoop net fuel pg acc =
        some (ListingOutcome.retData
          (acc ++ ((List.range' pg (k + 1 - pg)).map (fun i => pageResults (net i))).flatten), k) := by
  intro fuel
  induction fuel with
  | zero => intro pg acc _ hpk hfuel _; omega
  | succ fuel ih =>
    intro pg acc hpg hpk hfuel hmid
    by_cases hpgk : pg = k
    · subst hpgk
      obtain ⟨rs, hn, hpage, hend⟩ := hstop
      have hrange : pg + 1 - pg = 1 := by omega
      rw [hrange]
      rcases hend with hrs | hhn
      · subst hrs
        simp [fetchLoop, hpage, List.range'_succ, pageResults]
      · subst hhn
        by_cases hrs : rs = []
        · subst hrs
          simp [fetchLoop, hpage, List.range'_succ, pageResults]
        · simp [fetchLoop, hpage, hrs, List.range'_succ, pageResults]
    · have hlt : pg < k := by omega
      obtain ⟨rs, hpage, hrs⟩ := hmid pg le_rfl hlt
      have hrec : fetchLoop net (fuel + 1) pg acc = fetchLoop net fuel (pg + 1) (acc ++ rs) := by
        simp [fetchLoop, hpage, hrs]
      rw [hrec, ih (pg + 1) (acc ++ rs) (by omega) (by omega) (by omega)
        (fun i hi1 hi2 => hmid i (by omega) hi2)]
      have hsplit : k + 1 - pg = (k - pg) + 1 := by omega
      have hsplit2 : k + 1 - (pg + 1) = k - pg := by omega
      rw [hsplit, hsplit2, List.range'_succ]
      simp [hpage, pageResults, List.append_assoc]

/-! ## Helper lemmas: one unit of work -/

/-- `pyIndex` delivers the element at the translated index. -/
lemma pyIndex_ok (l : List α) (i : Int) (n : Nat) (a : α)
    (hj : (if i < 0 then (l.length : Int) + i else i) = (n : Int))
    (hget : l.get? n = some a) :
    pyIndex l i = Except.ok a := by
  simp only [pyIndex, hj]
  rw [if_pos (by omega : (0 : Int) ≤ (n : Int))]
  simp only [Int.toNat_natCast, hget]

/-- A translated index that is still negative raises `IndexError`. -/
lemma pyIndex_neg (l : List α) (i : Int)
    (hneg : i < 0) (hout : (l.length : Int) + i < 0) :
    pyIndex l i = Except.error "IndexError" := by
  simp only [pyIndex, if_pos hneg]
  rw [if_neg (by omega : ¬ (0 : Int) ≤ (l.length : Int) + i)]

/-- Inversion for a successful `Except` bind. -/
lemma exceptBind_ok {β γ : Type} {x : Except String β} {f : β → Except String γ} {c : γ}
    (h : (x >>= f) = Except.ok c) : ∃ b, x = Except.ok b ∧ f b = Except.ok c := by
  cases x with
  | error e => simp [bind, Except.bind] at h
  | ok b => exact ⟨b, rfl, by simpa [bind, Except.bind] using h⟩

/-- Inversion for a successful raising dictionary access. -/
lemma getKey_ok {β : Type} {o : Option β} {v : β} (h : getKey o = Except.ok v) :
    o = some v := by
  cases o with
  | none => simp [getKey] at h
  | some w =>
    simp only [getKey, Except.ok.injEq] at h
    rw [h]

/-- Success path of one unit: well-formed row, history fetched, `current`
present, length check passed, indexed element present with both keys. -/
lemma unit_success (gameweek : Int) (histOf : Int → HistResp) (m : Manager)
    (tid raw pen tot rnk : Int) (name pname : String) (cur : List PeriodEntry)
    (pe : PeriodEntry) (n : Nat)
    (hentry : m.entry = some tid) (hname : m.entry_name = some name)
    (hpname : m.player_name = some pname) (htot : m.total = some tot)
    (hrnk : m.rank = some rnk)
    (hhist : histOf tid = HistResp.payload (some cur))
    (hlen : gameweek ≤ (cur.length : Int))
    (hidx : (if gameweek - 1 < 0 then (cur.length : Int) + (gameweek - 1) else gameweek - 1) = (n : Int))
    (hget : cur.get? n = some pe)
    (hraw : pe.points = some raw) (hpen : pe.event_transfers_cost = some pen) :
    fetch_manager_gw_data gameweek histOf m =
      UnitOutcome.entry
        { manager_name := name, player_name := pname, team_id := tid,
          gw_points := raw, transfer_cost := pen, net_points := raw - pen,
          total_points := tot, overall_rank := rnk } := by
  have hpy : pyIndex cur (gameweek - 1) = Except.ok pe := pyIndex_ok cur _ n pe hidx hget
  have hge : (cur.length : Int) ≥ gameweek := hlen
  unfold fetch_manager_gw_data deriveEntry
  rw [hentry]
  simp [getKey, bind, Except.bind, hhist, hge, hpy, hraw, hpen, hname, hpname, htot, hrnk,
    pure, Except.pure]

/-- A unit whose history fetch fails, or whose history is shorter than the
requested gameweek, returns `None` without raising. -/
lemma unit_noEntry (gameweek : Int) (histOf : Int → HistResp) (m : Manager) (tid : Int)
    (hentry : m.entry = some tid)
    (h : histOf tid = HistResp.fail ∨
      (∃ cur, histOf tid = HistResp.payload (some cur) ∧ (cur.length : Int) < gameweek)) :
    fetch_manager_gw_data gameweek histOf m = UnitOutcome.noEntry := by
  unfold fetch_manager_gw_data deriveEntry
  rw [hentry]
  rcases h with hfail | ⟨cur, hcur, hshort⟩
  · simp [getKey, bind, Except.bind, hfail, pure, Except.pure]
  · have hne : ¬ ((cur.length : Int) ≥ gameweek) := by omega
    simp [getKey, bind, Except.bind, hcur, hne, pure, Except.pure]

/-- Every delivered entry carries the team id of the row it came from. -/
lemma unitResult_team_id (gameweek : Int) (histOf : Int → HistResp) (m : Manager)
    (e : LBEntry) (h : unitResult gameweek histOf m = some e) :
    m.entry = some e.team_id := by
  have hd : deriveEntry gameweek histOf m = Except.ok (some e) := by
    unfold unitResult fetch_manager_gw_data at h
    cases hd : deriveEntry gameweek histOf m with
    | error msg => rw [hd] at h; simp at h
    | ok o =>
      cases o with
      | none => rw [hd] at h; simp at h
      | some e2 => rw [hd] at h; simp at h; rw [h]
  unfold deriveEntry at hd
  obtain ⟨tid, h1, h2⟩ := exceptBind_ok hd
  have hentry := getKey_ok h1
  cases hh : histOf tid with
  | fail =>
    rw [hh] at h2
    simp [pure, Except.pure] at h2
  | payload cur? =>
    rw [hh] at h2
    obtain ⟨cur, h3, h4⟩ := exceptBind_ok h2
    by_cases hlen : (cur.length : Int) ≥ gameweek
    · rw [if_pos hlen] at h4
      obtain ⟨pe, h5, h6⟩ := exceptBind_ok h4
      obtain ⟨raw, h7, h8⟩ := exceptBind_ok h6
      obtain ⟨pen, h9, h10⟩ := exceptBind_ok h8
      obtain ⟨name, h11, h12⟩ := exceptBind_ok h10
      obtain ⟨pname, h13, h14⟩ := exceptBind_ok h12
      obtain ⟨tid2, h15, h16⟩ := exceptBind_ok h14
      obtain ⟨tot, h17, h18⟩ := exceptBind_ok h16
      obtain ⟨rnk, h19, h20⟩ := exceptBind_ok h18
      have htid2 := getKey_ok h15
      simp only [pure, Except.pure, Except.ok.injEq, Option.some.injEq] at h20
      rw [htid2, ← h20]
    · rw [if_neg hlen] at h4
      simp [pure, Except.pure] at h4

/-- Counting over a `filterMap`: each source element contributes according to
its image. -/
lemma countP_filterMap (f : α → Option β) (p : β → Bool) (l : List α) :
    (l.filterMap f).countP p = l.countP (fun a => ((f a).map p).getD false) := by
  induction l with
  | nil => rfl
  | cons x xs ih =>
    cases hx : f x with
    | none =>
      rw [List.filterMap_cons_none hx, ih, List.countP_cons_of_neg]
      simp [hx]
    | some b =>
      rw [List.filterMap_cons_some hx]
      cases hpb : p b with
      | true =>
        rw [List.countP_cons_of_pos _ _ hpb, ih, List.countP_cons_of_pos]
        simp [hx, hpb]
      | false =>
        rw [List.countP_cons_of_neg p _ (by simp [hpb]), ih,
          List.countP_cons_of_neg _ _ (by simp [hx, hpb])]

/-- A predicate counted once on a list holds for at most one element value. -/
lemma countP_eq_one_unique (p : α → Bool) (l : List α) (h : l.countP p = 1)
    {a b : α} (ha : a ∈ l) (hpa : p a = true) (hb : b ∈ l) (hpb : p b = true) :
    a = b := by
  rw [List.countP_eq_length_filter] at h
  obtain ⟨c, hc⟩ := List.length_eq_one.mp h
  have ha2 : a ∈ l.filter p := List.mem_filter.mpr ⟨ha, hpa⟩
  have hb2 : b ∈ l.filter p := List.mem_filter.mpr ⟨hb, hpb⟩
  rw [hc] at ha2 hb2
  simp at ha2 hb2
  rw [ha2, hb2]

/-! ## Claim theorems -/

/-- **C2.**  For every collected list of leaderboard entries, the final
leaderboard is that list sorted in non-increasing order of the raw period
score `gw_points`, and entries with exactly equal raw scores keep their
relative input order (stability; no secondary key): the ranking
`rankEntries` used by `get_gw_leaderboard` is a permutation of its input,
is sorted non-increasingly by `gw_points`, and preserves the input
subsequence of every fixed raw score. -/
theorem c2_ranking_sorted_stable (l : List LBEntry) :
    (rankEntries l).Perm l ∧
    (rankEntries l).Sorted (fun a b => b.gw_points ≤ a.gw_points) ∧
    ∀ k : Int, (rankEntries l).filter (fun e => e.gw_points == k) =
      l.filter (fun e => e.gw_points == k) :=
  ⟨rankEntries_perm l, rankEntries_sorted l, fun k => rankEntries_filter k l⟩

/-- **C5.**  The status writes a job performs always move strictly forward
along the chain not-started → in-progress → {completed | failed}, and nothing
is ever written after a terminal status: starting from the implicit
`notStarted` state, the successive statuses written by `get_gw_leaderboard`
have strictly increasing ranks (so in particular no transition leaves
`completed` or `failed`, which have maximal rank). -/
theorem c5_status_transitions_forward (net : Nat → PageResp)
    (histOf : Int → HistResp) (gameweek : Int) (fuel : Nat) :
    List.Chain' (fun a b => statusRank a < statusRank b)
      (Status.notStarted :: jobTrace net histOf gameweek fuel) := by
  unfold jobTrace get_gw_leaderboard
  cases hF : fetch_league_data net fuel with
  | none => simp
  | some r =>
    obtain ⟨o, pg⟩ := r
    cases o <;> simp [statusRank]

/-- **C1** (the code, evaluated at the failing input).  A league whose first
page succeeds with `has_next` set and whose second page fetch fails does not
yield a partial listing: `fetch_league_data` reaches line 52 with `data =
None` and raises `TypeError` (`ListingOutcome.exn`), and the job thread dies
(`JobResult.crash`) without writing any status — the job neither proceeds
with the truncated team set nor reports the listing-unavailable error. -/
theorem c1_later_page_failure_crashes :
    fetch_league_data netC1 10 = some (ListingOutcome.exn, 2) ∧
    get_gw_leaderboard netC1 histC3 1 10 = some (JobResult.crash, []) := by
  constructor
  · rfl
  · rfl

/-- **C7.**  Partitioning the per-team work into submission batches of 50
produces exactly the same collected entry list — and therefore the same
final ranked leaderboard — as processing all teams without batching
(`collectEntries`, the unbatched reference defined from the spec's words);
batching is invisible in the result. -/
theorem c7_batching_preserves_leaderboard (gameweek : Int)
    (histOf : Int → HistResp) (managers : List Manager) :
    collectBatched gameweek histOf managers = collectEntries gameweek histOf managers ∧
    rankEntries (collectBatched gameweek histOf managers) =
      rankEntries (collectEntries gameweek histOf managers) := by
  refine ⟨collectBatched_eq_collectEntries gameweek histOf managers, ?_⟩
  rw [collectBatched_eq_collectEntries]

/-- **C10.**  Any exception raised while deriving one team's entry (missing
`current`/`points`/`event_transfers_cost` keys, a listing row missing a
field, an out-of-range index, …) is contained in that unit of work: the
team contributes no entry, the `finally` block still increments the
processed counter exactly once, and a job whose listing stage succeeded
still completes normally (so neither the batch nor the job fails). -/
theorem c10_unit_exceptions_contained :
    (∀ (gameweek : Int) (histOf : Int → HistResp) (m : Manager) (s : UnitState)
      (msg : String), deriveEntry gameweek histOf m = Except.error msg →
        runUnit gameweek histOf m s =
          { processed := s.processed + 1, board := s.board }) ∧
    (∀ (net : Nat → PageResp) (histOf : Int → HistResp) (gameweek : Int)
      (fuel pg : Nat) (rs : List Manager),
      fetch_league_data net fuel = some (ListingOutcome.retData rs, pg) →
        get_gw_leaderboard net histOf gameweek fuel =
          some (JobResult.ok (rankEntries (collectBatched gameweek histOf rs)),
            [Status.processing, Status.completed])) := by
  constructor
  · intro gameweek histOf m s msg hmsg
    unfold runUnit fetch_manager_gw_data
    rw [hmsg]
  · intro net histOf gameweek fuel pg rs hF
    unfold get_gw_leaderboard
    rw [hF]

/-- Witness for C10: a history payload whose gameweek record lacks the
`points` key raises `KeyError` inside the unit; the counter still advances,
no entry is appended, and the job of a one-team league with that history
completes with an empty leaderboard. -/
theorem c10_unit_exceptions_contained_witness :
    runUnit 1 histBadKey mgrA { processed := 0, board := [] } =
      { processed := 1, board := [] } ∧
    get_gw_leaderboard netOne histBadKey 1 3 =
      some (JobResult.ok (rankEntries (collectBatched 1 histBadKey [mgrA])),
        [Status.processing, Status.completed]) := by
  constructor
  · exact c10_unit_exceptions_contained.1 1 histBadKey mgrA
      { processed := 0, board := [] } "KeyError" (by rfl)
  · exact c10_unit_exceptions_contained.2 netOne histBadKey 1 3 1 [mgrA] (by rfl)

/-- **C6.**  For a league whose pages all fetch successfully, the returned
listing is exactly the concatenation of pages 1..k, where k is the first
page with an empty result set or with `has_next` false: `fetch_league_data`
stops exactly at page k (the pair's second component) and its size is the
sum of the page sizes. -/
theorem c6_pagination_exact (net : Nat → PageResp) (k fuel : Nat)
    (hk : 1 ≤ k) (hfuel : k ≤ fuel)
    (hmid : ∀ i, 1 ≤ i → i < k → ∃ rs, net i = PageResp.page rs true ∧ rs ≠ [])
    (hstop : ∃ rs hn, net k = PageResp.page rs hn ∧ (rs = [] ∨ hn = false)) :
    fetch_league_data net fuel =
      some (ListingOutcome.retData
        (((List.range' 1 k).map (fun i => pageResults (net i))).flatten), k) ∧
    (((List.range' 1 k).map (fun i => pageResults (net i))).flatten).length =
      ((List.range' 1 k).map (fun i => (pageResults (net i)).length)).sum := by
  constructor
  · have := fetchLoop_run net k hstop fuel 1 [] le_rfl hk (by omega)
      (fun i hi1 hi2 => hmid i hi1 hi2)
    unfold fetch_league_data
    rw [this]
    have : k + 1 - 1 = k := by omega
    rw [this]
    simp
  · rw [List.length_flatten, List.map_map]
    rfl

/-- Witness for C6: a two-page league (page 1: two rows, more signalled;
page 2: one row, last page) yields the three rows stitched in page order,
stopping exactly at page 2, with size 2 + 1. -/
theorem c6_pagination_exact_witness :
    fetch_league_data netC6 5 =
      some (ListingOutcome.retData
        (((List.range' 1 2).map (fun i => pageResults (netC6 i))).flatten), 2) ∧
    (((List.range' 1 2).map (fun i => pageResults (netC6 i))).flatten).length =
      ((List.range' 1 2).map (fun i => (pageResults (netC6 i)).length)).sum := by
  have hmid : ∀ i, 1 ≤ i → i < 2 → ∃ rs, netC6 i = PageResp.page rs true ∧ rs ≠ [] := by
    intro i hi1 hi2
    have : i = 1 := by omega
    subst this
    exact ⟨[mgrA, mgrB], rfl, by simp⟩
  have hstop : ∃ rs hn, netC6 2 = PageResp.page rs hn ∧ (rs = [] ∨ hn = false) :=
    ⟨[mgrC], false, rfl, Or.inr rfl⟩
  exact c6_pagination_exact netC6 2 5 (by omega) (by omega) hmid hstop

/-- **C4, counterexample.**  The claim that each completed unit increments
the processed counter by exactly one — so that the counter equals the total
once all units completed — fails on the code: `processed_count += 1` is an
unsynchronized read-modify-write, and in the interleaving where both units
of a two-team job load the counter before either stores, both store 1: all
units completed yet the counter is 1, not 2. -/
theorem c4_lost_update_counterexample :
    completesAll 2 racySched ∧
    (crun cinit racySched).counter = 1 ∧ ¬ (crun cinit racySched).counter = 2 := by
  refine ⟨⟨?_, ?_⟩, rfl, by decide⟩
  · decide
  · decide

/-- **C4, amended.**  Every unit executes its increment exactly once (one
load and one store appear in any completing schedule), and the counter never
exceeds the total number of units; but because the increment is not atomic,
interleaved completions can lose updates, so equality with the total is only
guaranteed for non-interleaved (e.g. sequential) completion orders. -/
theorem c4_amended_counter_bounds (n : Nat) (sched : List Ev)
    (h : completesAll n sched) :
    (crun cinit sched).counter ≤ n ∧ (crun cinit (seqSched n)).counter = n := by
  constructor
  · have hc := crun_counter_le sched cinit 0 le_rfl (by intro u r hr; simp [cinit] at hr)
    rw [completesAll_countP h] at hc
    simpa using hc
  · have := crun_seqSched n cinit
    simpa [cinit] using this

/-- Witness for C4 (amended): the racing two-unit schedule stays within the
total, and the sequential two-unit schedule reaches it. -/
theorem c4_amended_counter_bounds_witness :
    (crun cinit racySched).counter ≤ 2 ∧ (crun cinit (seqSched 2)).counter = 2 :=
  c4_amended_counter_bounds 2 racySched (by constructor <;> decide)

/-- **C9, counterexample.**  The claim admits any negative period `p` with
`p ≥ -len(history)`; at the boundary `p = -len` it fails: for a one-gameweek
history and requested period `-1`, the coverage check `1 ≥ -1` passes, but
the Python index `p - 1 = -2` is out of range for a one-element list, the
`IndexError` is caught, and the team is dropped (`UnitOutcome.caught`),
not given an entry. -/
theorem c9_boundary_counterexample :
    fetch_manager_gw_data (-1) histOne mgrA = UnitOutcome.caught ∧
    (((([peA1] : List PeriodEntry).length : Int) ≥ -1) ∧ histOne 1 = HistResp.payload (some [peA1])) := by
  refine ⟨rfl, by norm_num, rfl⟩

/-- **C9, amended.**  For a requested period `p ≤ 0` with `p > -len` (i.e.
`p ≥ 1 - len`), a team with a well-formed fetched history is not excluded:
the coverage check `len ≥ p` holds trivially and the entry is built from the
history element at Python index `p - 1`, which is element `len + p - 1` from
the front — so for `p = 0` the scores come from the most recent gameweek.
At `p = -len` exactly the index is out of range and the team is dropped. -/
theorem c9_amended_negative_period (gameweek : Int) (histOf : Int → HistResp)
    (m : Manager) (tid raw pen tot rnk : Int) (name pname : String)
    (cur : List PeriodEntry) (pe : PeriodEntry)
    (hentry : m.entry = some tid) (hname : m.entry_name = some name)
    (hpname : m.player_name = some pname) (htot : m.total = some tot)
    (hrnk : m.rank = some rnk)
    (hhist : histOf tid = HistResp.payload (some cur))
    (hle : gameweek ≤ 0) (hgt : 1 - (cur.length : Int) ≤ gameweek)
    (hget : cur.get? ((cur.length : Int) + gameweek - 1).toNat = some pe)
    (hraw : pe.points = some raw) (hpen : pe.event_transfers_cost = some pen) :
    fetch_manager_gw_data gameweek histOf m =
      UnitOutcome.entry
        { manager_name := name, player_name := pname, team_id := tid,
          gw_points := raw, transfer_cost := pen, net_points := raw - pen,
          total_points := tot, overall_rank := rnk } := by
  refine unit_success gameweek histOf m tid raw pen tot rnk name pname cur pe
    ((cur.length : Int) + gameweek - 1).toNat hentry hname hpname htot hrnk hhist
    (by omega) ?_ hget hraw hpen
  rw [if_pos (by omega : gameweek - 1 < 0)]
  omega

/-- Witness for C9 (amended): a two-gameweek history polled at period 0
yields the entry of the last (most recent) gameweek: 20 points, 2 penalty,
net 18. -/
theorem c9_amended_negative_period_witness :
    fetch_manager_gw_data 0 histTwo mgrA =
      UnitOutcome.entry
        { manager_name := "Alpha FC", player_name := "Ann", team_id := 1,
          gw_points := 20, transfer_cost := 2, net_points := 20 - 2,
          total_points := 120, overall_rank := 3 } :=
  c9_amended_negative_period 0 histTwo mgrA 1 20 2 120 3 "Alpha FC" "Ann"
    [peA1, peA2] peA2 rfl rfl rfl rfl rfl rfl (by norm_num) (by norm_num) rfl rfl rfl

/-- **C3.**  For every team in a successfully fetched listing and requested
period `gameweek ≥ 1`: if the team's history fetch succeeds and covers the
period, the delivered leaderboard holds exactly one entry for that team, with
`gw_points` the period's raw score, `transfer_cost` its penalty, and
`net_points` exactly their difference (no rounding, over unbounded `Int`);
if the history is shorter than the period or the fetch fails, the team
appears in no entry and the job still completes without error. -/
theorem c3_per_team_scoring (net : Nat → PageResp) (histOf : Int → HistResp)
    (gameweek : Int) (fuel pg : Nat) (rs : List Manager) (tid : Int)
    (hlist : fetch_league_data net fuel = some (ListingOutcome.retData rs, pg)) :
    (∀ (m : Manager) (name pname : String) (raw pen tot rnk : Int)
      (cur : List PeriodEntry) (pe : PeriodEntry),
      m ∈ rs →
      m.entry = some tid → m.entry_name = some name → m.player_name = some pname →
      m.total = some tot → m.rank = some rnk →
      rs.countP (fun m2 => m2.entry == some tid) = 1 →
      histOf tid = HistResp.payload (some cur) →
      1 ≤ gameweek → gameweek ≤ (cur.length : Int) →
      cur.get? (gameweek - 1).toNat = some pe →
      pe.points = some raw → pe.event_transfers_cost = some pen →
      get_gw_leaderboard net histOf gameweek fuel =
        some (JobResult.ok (rankEntries (collectBatched gameweek histOf rs)),
          [Status.processing, Status.completed]) ∧
      (rankEntries (collectBatched gameweek histOf rs)).countP
        (fun e => e.team_id == tid) = 1 ∧
      ∀ e ∈ rankEntries (collectBatched gameweek histOf rs), e.team_id = tid →
        e.gw_points = raw ∧ e.transfer_cost = pen ∧ e.net_points = raw - pen) ∧
    ((histOf tid = HistResp.fail ∨
      (∃ cur, histOf tid = HistResp.payload (some cur) ∧ (cur.length : Int) < gameweek)) →
      get_gw_leaderboard net histOf gameweek fuel =
        some (JobResult.ok (rankEntries (collectBatched gameweek histOf rs)),
          [Status.processing, Status.completed]) ∧
      ∀ e ∈ rankEntries (collectBatched gameweek histOf rs), e.team_id ≠ tid) := by
  have hjob : get_gw_leaderboard net histOf gameweek fuel =
      some (JobResult.ok (rankEntries (collectBatched gameweek histOf rs)),
        [Status.processing, Status.completed]) := by
    unfold get_gw_leaderboard
    rw [hlist]
  have hperm : (rankEntries (collectBatched gameweek histOf rs)).Perm
      (collectEntries gameweek histOf rs) := by
    rw [collectBatched_eq_collectEntries]
    exact rankEntries_perm _
  constructor
  · intro m name pname raw pen tot rnk cur pe hm hentry hname hpname htot hrnk
      hcount hhist hgw1 hlen hget hraw hpen
    have hidx : (if gameweek - 1 < 0 then (cur.length : Int) + (gameweek - 1) else gameweek - 1) =
        (((gameweek - 1).toNat : Nat) : Int) := by
      rw [if_neg (by omega : ¬ gameweek - 1 < 0)]
      omega
    have hunit := unit_success gameweek histOf m tid raw pen tot rnk name pname cur pe
      (gameweek - 1).toNat hentry hname hpname htot hrnk hhist hlen hidx hget hraw hpen
    have hres : unitResult gameweek histOf m =
        some { manager_name := name, player_name := pname, team_id := tid,
               gw_points := raw, transfer_cost := pen, net_points := raw - pen,
               total_points := tot, overall_rank := rnk } := by
      unfold unitResult
      rw [hunit]
    refine ⟨hjob, ?_, ?_⟩
    · rw [hperm.countP_eq]
      unfold collectEntries
      rw [countP_filterMap]
      rw [@List.countP_congr Manager _ (fun m2 => m2.entry == some tid) rs ?_]
      · exact hcount
      · intro m2 hm2
        by_cases hm2t : m2.entry = some tid
        · have hm2m : m2 = m := by
            refine countP_eq_one_unique _ rs hcount hm2 ?_ hm ?_
            · simp [hm2t]
            · simp [hentry]
          subst hm2m
          rw [hres]
          simp [hm2t]
        · constructor
          · intro hL
            exfalso
            cases hf : unitResult gameweek histOf m2 with
            | none => rw [hf] at hL; simp at hL
            | some e2 =>
              rw [hf] at hL
              simp at hL
              have := unitResult_team_id gameweek histOf m2 e2 hf
              rw [hL] at this
              exact hm2t this
          · intro hR
            exfalso
            exact hm2t (by simpa using hR)
    · intro e he hetid
      have he2 : e ∈ collectEntries gameweek histOf rs := hperm.mem_iff.mp he
      obtain ⟨m2, hm2, hf⟩ := List.mem_filterMap.mp he2
      have hm2t : m2.entry = some tid := by
        rw [unitResult_team_id gameweek histOf m2 e hf, hetid]
      have hm2m : m2 = m := by
        refine countP_eq_one_unique _ rs hcount hm2 ?_ hm ?_
        · simp [hm2t]
        · simp [hentry]
      subst hm2m
      rw [hres] at hf
      have he0 : e = { manager_name := name, player_name := pname, team_id := tid,
                       gw_points := raw, transfer_cost := pen, net_points := raw - pen,
                       total_points := tot, overall_rank := rnk } := by
        simpa using hf.symm
      rw [he0]
      exact ⟨rfl, rfl, rfl⟩
  · intro habs
    refine ⟨hjob, ?_⟩
    intro e he hetid
    have he2 : e ∈ collectEntries gameweek histOf rs := hperm.mem_iff.mp he
    obtain ⟨m2, hm2, hf⟩ := List.mem_filterMap.mp he2
    have hm2t : m2.entry = some tid := by
      rw [unitResult_team_id gameweek histOf m2 e hf, hetid]
    have hnoe := unit_noEntry gameweek histOf m2 tid hm2t habs
    unfold unitResult at hf
    rw [hnoe] at hf
    simp at hf

/-- Witness for C3 (the spec's worked scenario): three teams, period 2;
team 1 covered (raw 20, penalty 2, net 18) gets exactly one entry, team 3's
history fetch fails and gets none, and the job completes. -/
theorem c3_per_team_scoring_witness :
    get_gw_leaderboard netC3 histC3 2 3 =
      some (JobResult.ok (rankEntries (collectBatched 2 histC3 [mgrA, mgrB, mgrC])),
        [Status.processing, Status.completed]) ∧
    (rankEntries (collectBatched 2 histC3 [mgrA, mgrB, mgrC])).countP
      (fun e => e.team_id == 1) = 1 ∧
    (rankEntries (collectBatched 2 histC3 [mgrA, mgrB, mgrC])).countP
      (fun e => e.team_id == 3) = 0 := by
  have h1 := (c3_per_team_scoring netC3 histC3 2 3 1 [mgrA, mgrB, mgrC] 1 (by rfl)).1
    mgrA "Alpha FC" "Ann" 20 2 120 3 [peA1, peA2] peA2 (by simp) rfl rfl rfl rfl rfl
    (by decide) rfl (by norm_num) (by norm_num) rfl rfl rfl
  have h3 := (c3_per_team_scoring netC3 histC3 2 3 1 [mgrA, mgrB, mgrC] 3 (by rfl)).2
    (Or.inl rfl)
  refine ⟨h1.1, h1.2.1, ?_⟩
  rw [List.countP_eq_zero]
  intro e he
  have := h3.2 e he
  simpa using this

/-! ## Helper lemmas: the binary64 percentage -/

/-- `log2f` with enough fuel is the floor of the base-2 logarithm. -/
lemma log2f_correct : ∀ (fuel n : Nat), 0 < n → n < 2 ^ fuel →
    2 ^ (log2f fuel n) ≤ n ∧ n < 2 ^ (log2f fuel n + 1) := by
  intro fuel
  induction fuel with
  | zero =>
    intro n h1 h2
    norm_num at h2
    omega
  | succ fuel ih =>
    intro n h1 h2
    by_cases hn : n ≤ 1
    · have hone : n = 1 := by omega
      subst hone
      simp [log2f]
    · have hrec : log2f (fuel + 1) n = log2f fuel (n / 2) + 1 := by
        simp [log2f, hn]
      have h1' : 0 < n / 2 := by omega
      have h2' : n / 2 < 2 ^ fuel := by
        have e : (2:ℕ) ^ (fuel + 1) = 2 * 2 ^ fuel := by rw [pow_succ]; ring
        omega
      obtain ⟨ha, hb⟩ := ih (n / 2) h1' h2'
      rw [hrec]
      constructor
      · have e : (2:ℕ) ^ (log2f fuel (n / 2) + 1) = 2 * 2 ^ (log2f fuel (n / 2)) := by
          rw [pow_succ]; ring
        omega
      · have e : (2:ℕ) ^ (log2f fuel (n / 2) + 1 + 1) = 2 * 2 ^ (log2f fuel (n / 2) + 1) := by
          rw [pow_succ]; ring
        omega

/-- Two-sided bound for round-to-nearest-ties-to-even: the rounded value is
within half an ulp of the exact quotient (integer form, no division). -/
lemma rhe_bounds (a b : Nat) (hb : 0 < b) :
    2 * rhe a b * b ≤ 2 * a + b ∧ 2 * a ≤ 2 * rhe a b * b + b := by
  have hdm := Nat.div_add_mod a b
  have hm := Nat.mod_lt a hb
  simp only [rhe]
  set q := a / b with hq
  set r := a % b with hr
  split_ifs with h1 h2 h3
  · constructor <;> linarith
  · constructor <;> linarith
  · constructor <;> linarith
  · constructor <;> linarith

/-- Comparing two `Nat` divisions whose cross products are close. -/
lemma nat_div_le_div_add_one (a c b e : Nat) (hc : 0 < c) (he : 0 < e)
    (h : a * e < b * c + c * e) : a / c ≤ b / e + 1 := by
  by_contra hcon
  push_neg at hcon
  have hX : b / e + 2 ≤ a / c := hcon
  have h1 : a / c * c ≤ a := Nat.div_mul_le_self a c
  have h2 : b < e * (b / e) + e := by
    have hdm := Nat.div_add_mod b e
    have hm := Nat.mod_lt b he
    omega
  have p1 : (a / c * c) * e ≤ a * e := mul_le_mul_of_nonneg_right h1 (Nat.zero_le e)
  have p2 : b * c < (e * (b / e) + e) * c := mul_lt_mul_of_pos_right h2 hc
  have p3 : (c * e) * (b / e + 2) ≤ (c * e) * (a / c) := Nat.mul_le_mul le_rfl hX
  nlinarith [p1, p2, p3, h]

/-- Integer halving: `2x ≤ 2y + 1` forces `x ≤ y`. -/
lemma half_le (x y : Nat) (h : 2 * x ≤ 2 * y + 1) : x ≤ y := by omega

/-- Core error bound: if `m1` is a half-ulp-correct 53-bit significand for
`p / t` in the binade fixed by `E`, and `m2` re-rounds `100 * m1` dropping
`d` bits (with `L` the floor log of `100 * m1` and `d = L - 52`), then the
truncated value `m2 / 2 ^ S` with `S = 252 - E - d` is within one of
`⌊100 p / t⌋`. -/
lemma pct_bounds_core (p t E m1 L d m2 S : Nat)
    (ht0 : 0 < t)
    (hE200 : E ≤ 200)
    (hBA1 : t * 2 ^ E ≤ p * 2 ^ 200)
    (hBA2 : p * 2 ^ 200 < t * 2 ^ (E + 1))
    (hra : 2 * m1 * (t * 2 ^ E) ≤ 2 * (p * 2 ^ 252) + t * 2 ^ E)
    (hrb : 2 * (p * 2 ^ 252) ≤ 2 * m1 * (t * 2 ^ E) + t * 2 ^ E)
    (hL1 : 2 ^ L ≤ 100 * m1)
    (hL2 : 100 * m1 < 2 ^ (L + 1))
    (hdL : d = L - 52)
    (hqa : 2 * m2 * 2 ^ d ≤ 2 * (100 * m1) + 2 ^ d)
    (hqb : 2 * (100 * m1) ≤ 2 * m2 * 2 ^ d + 2 ^ d)
    (hS : S = 252 - E - d) :
    m2 / 2 ^ S ≤ 100 * p / t + 1 ∧ 100 * p / t ≤ m2 / 2 ^ S + 1 := by
  have hB0 : 0 < t * 2 ^ E := by positivity
  have h252 : (2:ℕ) ^ 252 = 2 ^ (252 - E) * 2 ^ E := by
    rw [← pow_add]
    congr 1
    omega
  have hi1 : 2 * m1 * t ≤ 2 * p * 2 ^ (252 - E) + t := by
    have hmul : (2 * m1 * t) * 2 ^ E ≤ (2 * p * 2 ^ (252 - E) + t) * 2 ^ E := by
      calc (2 * m1 * t) * 2 ^ E = 2 * m1 * (t * 2 ^ E) := by ring
        _ ≤ 2 * (p * 2 ^ 252) + t * 2 ^ E := hra
        _ = (2 * p * 2 ^ (252 - E) + t) * 2 ^ E := by rw [h252]; ring
    exact Nat.le_of_mul_le_mul_right hmul (by positivity)
  have hi2 : 2 * p * 2 ^ (252 - E) ≤ 2 * m1 * t + t := by
    have hmul : (2 * p * 2 ^ (252 - E)) * 2 ^ E ≤ (2 * m1 * t + t) * 2 ^ E := by
      calc (2 * p * 2 ^ (252 - E)) * 2 ^ E = 2 * (p * 2 ^ 252) := by rw [h252]; ring
        _ ≤ 2 * m1 * (t * 2 ^ E) + t * 2 ^ E := hrb
        _ = (2 * m1 * t + t) * 2 ^ E := by ring
    exact Nat.le_of_mul_le_mul_right hmul (by positivity)
  have hA_lo : (t * 2 ^ E) * 2 ^ 52 ≤ p * 2 ^ 252 := by
    calc (t * 2 ^ E) * 2 ^ 52 ≤ (p * 2 ^ 200) * 2 ^ 52 := Nat.mul_le_mul_right _ hBA1
      _ = p * 2 ^ 252 := by rw [mul_assoc, ← pow_add]
  have hA_hi : p * 2 ^ 252 < (t * 2 ^ E) * 2 ^ 53 := by
    have h2 : (2:ℕ) * 2 ^ 52 = 2 ^ 53 := by norm_num
    calc p * 2 ^ 252 = (p * 2 ^ 200) * 2 ^ 52 := by rw [mul_assoc, ← pow_add]
      _ < (t * 2 ^ (E + 1)) * 2 ^ 52 := mul_lt_mul_of_pos_right hBA2 (by positivity)
      _ = (t * 2 ^ E) * 2 ^ 53 := by rw [pow_succ, ← h2]; ring
  have hm1lo : 2 ^ 52 ≤ m1 := by
    refine half_le (2 ^ 52) m1 ?_
    have hs : (2 * 2 ^ 52) * (t * 2 ^ E) ≤ (2 * m1 + 1) * (t * 2 ^ E) := by
      calc (2 * 2 ^ 52) * (t * 2 ^ E) = 2 * ((t * 2 ^ E) * 2 ^ 52) := by ring
        _ ≤ 2 * (p * 2 ^ 252) := by linarith
        _ ≤ 2 * m1 * (t * 2 ^ E) + t * 2 ^ E := hrb
        _ = (2 * m1 + 1) * (t * 2 ^ E) := by ring
    exact Nat.le_of_mul_le_mul_right hs hB0
  have hm1hi : m1 ≤ 2 ^ 53 := by
    refine half_le m1 (2 ^ 53) ?_
    have hs : (2 * m1) * (t * 2 ^ E) ≤ (2 * 2 ^ 53 + 1) * (t * 2 ^ E) := by
      calc (2 * m1) * (t * 2 ^ E) = 2 * m1 * (t * 2 ^ E) := by ring
        _ ≤ 2 * (p * 2 ^ 252) + t * 2 ^ E := hra
        _ ≤ 2 * ((t * 2 ^ E) * 2 ^ 53) + t * 2 ^ E := by linarith
        _ = (2 * 2 ^ 53 + 1) * (t * 2 ^ E) := by ring
    exact Nat.le_of_mul_le_mul_right hs hB0
  have hL58 : 58 ≤ L := by
    have h1 : (2:ℕ) ^ 58 < 100 * 2 ^ 52 := by norm_num
    have h2 : 100 * 2 ^ 52 ≤ 100 * m1 := Nat.mul_le_mul_left 100 hm1lo
    have h3 : (2:ℕ) ^ 58 < 2 ^ (L + 1) := by linarith
    have h4 := (Nat.pow_lt_pow_iff_right (by norm_num : 1 < 2)).mp h3
    omega
  have hL59 : L ≤ 59 := by
    have h1 : 100 * m1 ≤ 100 * 2 ^ 53 := Nat.mul_le_mul_left 100 hm1hi
    have h2 : (100:ℕ) * 2 ^ 53 < 2 ^ 60 := by norm_num
    have h3 : (2:ℕ) ^ L < 2 ^ 60 := by linarith
    have h4 := (Nat.pow_lt_pow_iff_right (by norm_num : 1 < 2)).mp h3
    omega
  have hd6 : 6 ≤ d := by omega
  have hd7 : d ≤ 7 := by omega
  have hS1 : 1 ≤ S := by omega
  have hSd : (2:ℕ) ^ (252 - E) = 2 ^ S * 2 ^ d := by
    rw [← pow_add]
    congr 1
    omega
  rw [hSd] at hi1 hi2
  have hS2 : (2:ℕ) ≤ 2 ^ S := by
    calc (2:ℕ) = 2 ^ 1 := by norm_num
      _ ≤ 2 ^ S := Nat.pow_le_pow_right (by norm_num) hS1
  have h2d64 : (64:ℕ) ≤ 2 ^ d := by
    calc (64:ℕ) = 2 ^ 6 := by norm_num
      _ ≤ 2 ^ d := Nat.pow_le_pow_right (by norm_num) hd6
  have hcrit : 100 + 2 ^ d < 2 ^ S * (2 * 2 ^ d) := by
    have hx : 2 * (2 * 2 ^ d) ≤ 2 ^ S * (2 * 2 ^ d) := Nat.mul_le_mul_right _ hS2
    linarith
  have hcrit_t : (100 + 2 ^ d) * t < (2 ^ S * (2 * 2 ^ d)) * t :=
    mul_lt_mul_of_pos_right hcrit ht0
  have SC1 : ((2 * 2 ^ d) * m2) * t <
      (100 * p) * ((2 * 2 ^ d) * 2 ^ S) + ((2 * 2 ^ d) * 2 ^ S) * t := by
    have k1 : (2 * m2 * 2 ^ d) * t ≤ (2 * (100 * m1) + 2 ^ d) * t :=
      Nat.mul_le_mul_right t hqa
    linarith [k1, hi1, hcrit_t]
  have SC2 : (100 * p) * ((2 * 2 ^ d) * 2 ^ S) <
      ((2 * 2 ^ d) * m2) * t + t * ((2 * 2 ^ d) * 2 ^ S) := by
    have k1 : (2 * (100 * m1)) * t ≤ (2 * m2 * 2 ^ d + 2 ^ d) * t :=
      Nat.mul_le_mul_right t hqb
    linarith [k1, hi2, hcrit_t]
  have hrw : m2 / 2 ^ S = ((2 * 2 ^ d) * m2) / ((2 * 2 ^ d) * 2 ^ S) := by
    rw [Nat.mul_div_mul_left _ _ (by positivity)]
  constructor
  · rw [hrw]
    exact nat_div_le_div_add_one _ _ _ _ (by positivity) ht0 SC1
  · rw [hrw]
    exact nat_div_le_div_add_one (100 * p) t ((2 * 2 ^ d) * m2) ((2 * 2 ^ d) * 2 ^ S)
      ht0 (by positivity) SC2


/-- Unfolding of `percentage` on a positive denominator whose exponents land
(as they always do for `p ≤ t` in range) below 52: the result is the
significand `m2` shifted down by `252 - E - d` bits. -/
lemma percentage_eq_core (p t E m1 L d m2 : Nat)
    (hp0 : ¬ p = 0) (ht0 : ¬ t = 0)
    (hE : E = log2f 400 (p * 2 ^ 200 / t))
    (hm1 : m1 = rhe (p * 2 ^ 252) (t * 2 ^ E))
    (hL : L = log2f 400 (100 * m1))
    (hd : d = L - 52)
    (hm2 : m2 = rhe (100 * m1) (2 ^ d))
    (hE200 : E ≤ 200) (hd7 : d ≤ 7) :
    percentage p t = m2 / 2 ^ (252 - E - d) := by
  subst hm2
  subst hd
  subst hL
  subst hm1
  subst hE
  unfold percentage fdiv53 fmul100
  rw [if_neg ht0, if_neg hp0]
  simp only []
  split_ifs with hcase
  · exfalso
    omega
  · congr 1
    congr 1
    omega

set_option maxRecDepth 100000 in
set_option maxHeartbeats 1000000 in
/-- **C8, counterexample.**  The claim that the reported percentage equals
`(p / t) * 100` rounded down fails on the code: the computation is done in
binary64 floating point, and for processed 29 of total 100 the double
`29 / 100` is slightly below 0.29, its product with 100 rounds to just
under 29, and `int()` truncates to 28 — while the exact rounded-down value
is 29. -/
theorem c8_float_truncation_counterexample :
    percentage 29 100 = 28 ∧ 100 * 29 / 100 = 29 := by
  constructor
  · decide
  · norm_num

/-- **C8, amended.**  A poll of a known, not-yet-completed job reports
`percentage processed total`, the truncation of the binary64 evaluation of
`(processed / total) * 100`: it is 0 when the total is 0 and when nothing is
processed, and for `1 ≤ p ≤ t ≤ 2 ^ 64` it differs from the exact
rounded-down value `⌊100 p / t⌋` by at most 1 in either direction (it is not
always equal to it). -/
theorem c8_amended_percentage_bounds (p t : Nat) :
    (∀ e : ProgressEntry, e.status ≠ Status.completed →
      get_progress (some e) =
        ProgressResponse.processingResp e.total e.processed
          (percentage e.processed e.total)) ∧
    percentage p 0 = 0 ∧
    percentage 0 t = 0 ∧
    (1 ≤ p → p ≤ t → t ≤ 2 ^ 64 →
      percentage p t ≤ 100 * p / t + 1 ∧ 100 * p / t ≤ percentage p t + 1) := by
  refine ⟨?_, rfl, by simp [percentage], ?_⟩
  · intro e he
    cases hdata : e.data with
    | none => simp [get_progress, hdata]
    | some lb => simp [get_progress, hdata, he]
  intro hp hpt ht64
  have main : ∀ E m1 L d m2 S : Nat,
      E = log2f 400 (p * 2 ^ 200 / t) →
      m1 = rhe (p * 2 ^ 252) (t * 2 ^ E) →
      L = log2f 400 (100 * m1) →
      d = L - 52 →
      m2 = rhe (100 * m1) (2 ^ d) →
      S = 252 - E - d →
      percentage p t ≤ 100 * p / t + 1 ∧ 100 * p / t ≤ percentage p t + 1 := by
    intro E m1 L d m2 S hE hm1 hL hd hm2 hS
    have ht0 : 0 < t := by omega
    have h200 : (2:ℕ) ^ 64 ≤ 2 ^ 200 := by norm_num
    have hple : 2 ^ 200 ≤ p * 2 ^ 200 := Nat.le_mul_of_pos_left _ (by omega)
    have hN1 : 1 ≤ p * 2 ^ 200 / t := by
      rw [Nat.one_le_div_iff ht0]
      linarith
    have hN2 : p * 2 ^ 200 / t ≤ 2 ^ 200 := by
      calc p * 2 ^ 200 / t ≤ t * 2 ^ 200 / t :=
            Nat.div_le_div_right (Nat.mul_le_mul_right _ hpt)
        _ = 2 ^ 200 := Nat.mul_div_cancel_left _ ht0
    have hN400 : p * 2 ^ 200 / t < 2 ^ 400 := by
      have hx : (2:ℕ) ^ 200 < 2 ^ 400 := by norm_num
      linarith
    obtain ⟨hE1, hE2⟩ := log2f_correct 400 (p * 2 ^ 200 / t) hN1 hN400
    rw [← hE] at hE1 hE2
    have hE200 : E ≤ 200 := by
      have hle : (2:ℕ) ^ E ≤ 2 ^ 200 := le_trans hE1 hN2
      exact (Nat.pow_le_pow_iff_right (by norm_num : 1 < 2)).mp hle
    have hBA1 : t * 2 ^ E ≤ p * 2 ^ 200 := by
      have h := (Nat.le_div_iff_mul_le ht0).mp hE1
      linarith
    have hBA2 : p * 2 ^ 200 < t * 2 ^ (E + 1) := by
      have h := (Nat.div_lt_iff_lt_mul ht0).mp hE2
      linarith
    have hB0 : 0 < t * 2 ^ E := by positivity
    obtain ⟨hra, hrb⟩ := rhe_bounds (p * 2 ^ 252) (t * 2 ^ E) hB0
    rw [← hm1] at hra hrb
    have hA_lo : (t * 2 ^ E) * 2 ^ 52 ≤ p * 2 ^ 252 := by
      calc (t * 2 ^ E) * 2 ^ 52 ≤ (p * 2 ^ 200) * 2 ^ 52 := Nat.mul_le_mul_right _ hBA1
        _ = p * 2 ^ 252 := by rw [mul_assoc, ← pow_add]
    have hA_hi : p * 2 ^ 252 < (t * 2 ^ E) * 2 ^ 53 := by
      have h2 : (2:ℕ) * 2 ^ 52 = 2 ^ 53 := by norm_num
      calc p * 2 ^ 252 = (p * 2 ^ 200) * 2 ^ 52 := by rw [mul_assoc, ← pow_add]
        _ < (t * 2 ^ (E + 1)) * 2 ^ 52 := mul_lt_mul_of_pos_right hBA2 (by positivity)
        _ = (t * 2 ^ E) * 2 ^ 53 := by rw [pow_succ, ← h2]; ring
    have hm1lo : 2 ^ 52 ≤ m1 := by
      refine half_le (2 ^ 52) m1 ?_
      have hs : (2 * 2 ^ 52) * (t * 2 ^ E) ≤ (2 * m1 + 1) * (t * 2 ^ E) := by
        calc (2 * 2 ^ 52) * (t * 2 ^ E) = 2 * ((t * 2 ^ E) * 2 ^ 52) := by ring
          _ ≤ 2 * (p * 2 ^ 252) := by linarith
          _ ≤ 2 * m1 * (t * 2 ^ E) + t * 2 ^ E := hrb
          _ = (2 * m1 + 1) * (t * 2 ^ E) := by ring
      exact Nat.le_of_mul_le_mul_right hs hB0
    have hm1hi : m1 ≤ 2 ^ 53 := by
      refine half_le m1 (2 ^ 53) ?_
      have hs : (2 * m1) * (t * 2 ^ E) ≤ (2 * 2 ^ 53 + 1) * (t * 2 ^ E) := by
        calc (2 * m1) * (t * 2 ^ E) = 2 * m1 * (t * 2 ^ E) := by ring
          _ ≤ 2 * (p * 2 ^ 252) + t * 2 ^ E := hra
          _ ≤ 2 * ((t * 2 ^ E) * 2 ^ 53) + t * 2 ^ E := by linarith
          _ = (2 * 2 ^ 53 + 1) * (t * 2 ^ E) := by ring
      exact Nat.le_of_mul_le_mul_right hs hB0
    have hmp0 : 0 < 100 * m1 := by
      have h520 : (0:ℕ) < 2 ^ 52 := by positivity
      have : 0 < m1 := by omega
      exact Nat.mul_pos (by norm_num) this
    have hmp400 : 100 * m1 < 2 ^ 400 := by
      have h1 : 100 * m1 ≤ 100 * 2 ^ 53 := Nat.mul_le_mul_left 100 hm1hi
      have h2 : (100:ℕ) * 2 ^ 53 < 2 ^ 400 := by norm_num
      linarith
    obtain ⟨hL1, hL2⟩ := log2f_correct 400 (100 * m1) hmp0 hmp400
    rw [← hL] at hL1 hL2
    have hL59 : L ≤ 59 := by
      have h1 : 100 * m1 ≤ 100 * 2 ^ 53 := Nat.mul_le_mul_left 100 hm1hi
      have h2 : (100:ℕ) * 2 ^ 53 < 2 ^ 60 := by norm_num
      have h3 : (2:ℕ) ^ L < 2 ^ 60 := by linarith
      exact Nat.lt_succ_iff.mp ((Nat.pow_lt_pow_iff_right (by norm_num : 1 < 2)).mp h3)
    have hd7 : d ≤ 7 := by omega
    obtain ⟨hqa, hqb⟩ := rhe_bounds (100 * m1) (2 ^ d) (by positivity)
    rw [← hm2] at hqa hqb
    have hcore := pct_bounds_core p t E m1 L d m2 S ht0 hE200 hBA1 hBA2 hra hrb
      hL1 hL2 hd hqa hqb hS
    have hpct : percentage p t = m2 / 2 ^ S := by
      rw [percentage_eq_core p t E m1 L d m2 (by omega) (by omega) hE hm1 hL hd hm2
        hE200 hd7, hS]
    rw [hpct]
    exact hcore
  exact main _ _ _ _ _ _ rfl rfl rfl rfl rfl rfl

set_option maxRecDepth 100000 in
set_option maxHeartbeats 1000000 in
/-- Witness for C8 (amended): at processed 29 of total 100 the polled
percentage stays within one of the exact value (the code reports 28, the
exact floor is 29), and a zero total reports zero. -/
theorem c8_amended_percentage_bounds_witness :
    percentage 29 0 = 0 ∧
    percentage 29 100 ≤ 100 * 29 / 100 + 1 ∧ 100 * 29 / 100 ≤ percentage 29 100 + 1 := by
  have h := c8_amended_percentage_bounds 29 100
  exact ⟨h.2.1, (h.2.2.2 (by norm_num) (by norm_num) (by norm_num)).1,
    (h.2.2.2 (by norm_num) (by norm_num) (by norm_num)).2⟩
